import Mathlib

/-!
Verification of the pow-key proof-of-work solver (src/hash.rs).

The development shallowly embeds the hashing core of the repository:
bytes are natural numbers below 256, byte strings are lists of naturals,
and the machine integers of the source (u8, u64, U256) are naturals with
explicit reductions modulo 2^8, 2^64 or 2^256 wherever the source can
overflow.  Code that can panic (integer division by zero, `unwrap`,
`as_u64` narrowing) is embedded with the `RustOutcome` monad-like type:
`RustOutcome.ok v` is a normal return and `RustOutcome.panic` an aborted
computation.

The SHA-256 compression function itself lives in an external crate
(`crypto::sha2::Sha256`); it is embedded here as the standard FIPS 180-4
algorithm, which is what that crate implements, and is validated against
the concrete digests recorded in the repository's own test suite.
-/

/-- Reduction modulo 2^32, the wrap-around of 32-bit words inside SHA-256. -/
def u32 (x : Nat) : Nat := x % 4294967296

/-- Rotation of a 32-bit word to the right by n bits. -/
def rotr (n x : Nat) : Nat := u32 ((x >>> n) ||| (x <<< (32 - n)))

/-- Compression function Sigma0 of FIPS 180-4. -/
def bigSigma0 (x : Nat) : Nat := rotr 2 x ^^^ rotr 13 x ^^^ rotr 22 x

/-- Compression function Sigma1 of FIPS 180-4. -/
def bigSigma1 (x : Nat) : Nat := rotr 6 x ^^^ rotr 11 x ^^^ rotr 25 x

/-- Message schedule function sigma0 of FIPS 180-4. -/
def smallSigma0 (x : Nat) : Nat := rotr 7 x ^^^ rotr 18 x ^^^ (x >>> 3)

/-- Message schedule function sigma1 of FIPS 180-4. -/
def smallSigma1 (x : Nat) : Nat := rotr 17 x ^^^ rotr 19 x ^^^ (x >>> 10)

/-- Choice function of FIPS 180-4; the complement of `x` is `x ^^^ (2^32 - 1)`
for `x < 2^32`. -/
def ch (x y z : Nat) : Nat := (x &&& y) ^^^ ((x ^^^ 4294967295) &&& z)

/-- Majority function of FIPS 180-4. -/
def maj (x y z : Nat) : Nat := (x &&& y) ^^^ (x &&& z) ^^^ (y &&& z)

/-- Round constants of SHA-256. -/
def sha256K : List Nat :=
  [1116352408, 1899447441, 3049323471, 3921009573, 961987163, 1508970993,
   2453635748, 2870763221, 3624381080, 310598401, 607225278, 1426881987,
   1925078388, 2162078206, 2614888103, 3248222580, 3835390401, 4022224774,
   264347078, 604807628, 770255983, 1249150122, 1555081692, 1996064986,
   2554220882, 2821834349, 2952996808, 3210313671, 3336571891, 3584528711,
   113926993, 338241895, 666307205, 773529912, 1294757372, 1396182291,
   1695183700, 1986661051, 2177026350, 2456956037, 2730485921, 2820302411,
   3259730800, 3345764771, 3516065817, 3600352804, 4094571909, 275423344,
   430227734, 506948616, 659060556, 883997877, 958139571, 1322822218,
   1537002063, 1747873779, 1955562222, 2024104815, 2227730452, 2361852424,
   2428436474, 2756734187, 3204031479, 3329325298]

/-- Initial hash state of SHA-256. -/
def sha256H0 : List Nat :=
  [1779033703, 3144134277, 1013904242, 2773480762,
   1359893119, 2600822924, 528734635, 1541459225]

/-- Big-endian byte encoding of `x` into exactly `k` bytes (the encoding used
both by SHA-256 length padding and word output, and by `U256::to_big_endian`
in the target calculus). -/
def toBE : Nat → Nat → List Nat
  | 0, _ => []
  | k + 1, x => toBE k (x / 256) ++ [x % 256]

/-- SHA-256 padding: append `0x80`, zero bytes up to 56 mod 64, then the
bit length of the message as an 8-byte big-endian integer. -/
def padMessage (msg : List Nat) : List Nat :=
  msg ++ 128 :: (List.replicate ((119 - msg.length % 64) % 64) 0 ++ toBE 8 (8 * msg.length))

/-- Grouping of a padded byte stream into big-endian 32-bit words. -/
def bytesToWords : List Nat → List Nat
  | a :: b :: c :: d :: rest => (((a * 256 + b) * 256 + c) * 256 + d) :: bytesToWords rest
  | _ => []

/-- Fuel-driven chunking of the word stream into 16-word blocks; the fuel is
an upper bound on the number of blocks, so recursion is structural. -/
def toBlocksFuel : Nat → List Nat → List (List Nat)
  | 0, _ => []
  | _, [] => []
  | fuel + 1, w :: ws => (w :: ws).take 16 :: toBlocksFuel fuel ((w :: ws).drop 16)

/-- Chunking of the word stream into 16-word blocks. -/
def toBlocks (ws : List Nat) : List (List Nat) := toBlocksFuel ws.length ws

/-- Extension of a 16-word block to the 64-word message schedule; each step
appends one word. -/
def extendSchedule : List Nat → Nat → List Nat
  | w, 0 => w
  | w, k + 1 =>
    extendSchedule (w ++ [u32 (smallSigma1 (w.getD (w.length - 2) 0) + w.getD (w.length - 7) 0 +
      smallSigma0 (w.getD (w.length - 15) 0) + w.getD (w.length - 16) 0)]) k

/-- Working state (a..h) of the SHA-256 compression loop. -/
structure Sha256State where
  a : Nat
  b : Nat
  c : Nat
  d : Nat
  e : Nat
  f : Nat
  g : Nat
  h : Nat
deriving DecidableEq

/-- One round of the SHA-256 compression loop; `kw` is the pair of round
constant and schedule word. -/
def sha256Round (st : Sha256State) (kw : Nat × Nat) : Sha256State :=
  ⟨u32 (u32 (st.h + bigSigma1 st.e + ch st.e st.f st.g + kw.1 + kw.2) +
      u32 (bigSigma0 st.a + maj st.a st.b st.c)),
    st.a, st.b, st.c,
    u32 (st.d + u32 (st.h + bigSigma1 st.e + ch st.e st.f st.g + kw.1 + kw.2)),
    st.e, st.f, st.g⟩

/-- Compression of one 16-word block into the running 8-word hash state. -/
def compressBlock (hs : List Nat) (block : List Nat) : List Nat :=
  (sha256K.zip (extendSchedule block 48)).foldl sha256Round
      ⟨hs.getD 0 0, hs.getD 1 0, hs.getD 2 0, hs.getD 3 0,
       hs.getD 4 0, hs.getD 5 0, hs.getD 6 0, hs.getD 7 0⟩
  |> fun st =>
    [u32 (hs.getD 0 0 + st.a), u32 (hs.getD 1 0 + st.b), u32 (hs.getD 2 0 + st.c),
     u32 (hs.getD 3 0 + st.d), u32 (hs.getD 4 0 + st.e), u32 (hs.getD 5 0 + st.f),
     u32 (hs.getD 6 0 + st.g), u32 (hs.getD 7 0 + st.h)]

/-- SHA-256 of a byte string, as the list of its 32 digest bytes.  This is the
embedding of `crypto::sha2::Sha256` as used by `Sha256Hasher::hash_impl`. -/
def sha256 (msg : List Nat) : List Nat :=
  ((toBlocks (bytesToWords (padMessage msg))).foldl compressBlock sha256H0).flatMap (toBE 4)

/-- Little-endian byte encoding of `x` into exactly `k` bytes. -/
def toLE : Nat → Nat → List Nat
  | 0, _ => []
  | k + 1, x => x % 256 :: toLE k (x / 256)

/-- Embedding of `nonce_to_bytes` (src/hash.rs:420): the 8-byte little-endian
encoding of a u64 nonce, via `byteorder::LittleEndian::write_u64`. -/
def nonce_to_bytes (nonce : Nat) : List Nat := toLE 8 (nonce % 2 ^ 64)

/-- Embedding of `Sha256Hasher` (src/hash.rs:31): holds the base byte string. -/
structure Sha256Hasher where
  base : List Nat
deriving DecidableEq

/-- Embedding of `Sha256Hasher::hash_impl` (src/hash.rs:40). -/
def Sha256Hasher.hash_impl (b : List Nat) : List Nat := sha256 b

/-- Embedding of `Sha256Hasher::hash_with_nonce` (src/hash.rs:48): the digest
of the concatenation of the base and the 8 little-endian nonce bytes. -/
def Sha256Hasher.hash_with_nonce (hasher : Sha256Hasher) (nonce : Nat) : List Nat :=
  Sha256Hasher.hash_impl (hasher.base ++ nonce_to_bytes nonce)

/-- Outcome of a Rust computation: a normal return or a panic (used for
integer division by zero, `unwrap` and `as_u64` narrowing). -/
inductive RustOutcome (α : Type) where
  | ok : α → RustOutcome α
  | panic : RustOutcome α
deriving DecidableEq

/-- Lexicographic strict order on byte lists: the order of the derived
`Ord` instance on `Sha256Hash { value: [u8; 32] }` (src/hash.rs:57), used by
`hash_result < self.target` in the worker loop. -/
def lexLtBytes : List Nat → List Nat → Bool
  | _, [] => false
  | [], _ :: _ => true
  | a :: as, b :: bs => if a < b then true else if b < a then false else lexLtBytes as bs

/-- Big-endian value of a byte list; this is how `U256::from(self.value)`
reads the 32 digest bytes in the target calculus. -/
def beVal (bytes : List Nat) : Nat := bytes.foldl (fun acc b => acc * 256 + b) 0

/-- Test for the four byte values that `rustc_serialize::hex::from_hex`
silently skips: space, CR, LF, TAB. -/
def isSkippedWhitespace (c : Nat) : Prop := c = 32 ∨ c = 13 ∨ c = 10 ∨ c = 9

instance (c : Nat) : Decidable (isSkippedWhitespace c) := by
  unfold isSkippedWhitespace; infer_instance

/-- Test for an ASCII hexadecimal digit (0-9, A-F, a-f). -/
def isHexDigit (c : Nat) : Prop :=
  (48 ≤ c ∧ c ≤ 57) ∨ (65 ≤ c ∧ c ≤ 70) ∨ (97 ≤ c ∧ c ≤ 102)

instance (c : Nat) : Decidable (isHexDigit c) := by
  unfold isHexDigit; infer_instance

/-- Test for an ASCII lowercase hexadecimal digit (0-9, a-f). -/
def isLowerHexDigit (c : Nat) : Prop := (48 ≤ c ∧ c ≤ 57) ∨ (97 ≤ c ∧ c ≤ 102)

instance (c : Nat) : Decidable (isLowerHexDigit c) := by
  unfold isLowerHexDigit; infer_instance

/-- Numeric value of an ASCII hexadecimal digit. -/
def hexVal (c : Nat) : Nat :=
  if 65 ≤ c ∧ c ≤ 70 then c - 65 + 10
  else if 97 ≤ c ∧ c ≤ 102 then c - 97 + 10
  else c - 48

/-- Embedding of the loop of `rustc_serialize::hex::from_hex`, the decoder
called by `Sha256Hash::from_str` (src/hash.rs:75).  `buf` is the u8
accumulator (`buf <<= 4` wraps at 256), `modulus` counts nibbles mod 2, and
`acc` holds the output bytes in reverse.  Whitespace (space, CR, LF, TAB) is
skipped after undoing the shift; any other non-hex byte is an error; a
trailing half byte (`modulus = 1`) is an error. -/
def fromHexAux : Nat → Nat → List Nat → List Nat → Option (List Nat)
  | _, modulus, acc, [] => if modulus = 0 then some acc.reverse else none
  | buf, modulus, acc, c :: rest =>
    if 65 ≤ c ∧ c ≤ 70 then
      if modulus = 1 then
        fromHexAux (((buf <<< 4) % 256) ||| (c - 65 + 10)) 0
          ((((buf <<< 4) % 256) ||| (c - 65 + 10)) :: acc) rest
      else fromHexAux (((buf <<< 4) % 256) ||| (c - 65 + 10)) 1 acc rest
    else if 97 ≤ c ∧ c ≤ 102 then
      if modulus = 1 then
        fromHexAux (((buf <<< 4) % 256) ||| (c - 97 + 10)) 0
          ((((buf <<< 4) % 256) ||| (c - 97 + 10)) :: acc) rest
      else fromHexAux (((buf <<< 4) % 256) ||| (c - 97 + 10)) 1 acc rest
    else if 48 ≤ c ∧ c ≤ 57 then
      if modulus = 1 then
        fromHexAux (((buf <<< 4) % 256) ||| (c - 48)) 0
          ((((buf <<< 4) % 256) ||| (c - 48)) :: acc) rest
      else fromHexAux (((buf <<< 4) % 256) ||| (c - 48)) 1 acc rest
    else if isSkippedWhitespace c then
      fromHexAux (((buf <<< 4) % 256) >>> 4) modulus acc rest
    else none

/-- Embedding of `str::from_hex` of rustc_serialize as called on the whole
input string. -/
def fromHex (s : List Nat) : Option (List Nat) := fromHexAux 0 0 [] s

/-- Embedding of `Sha256Hash::from_str` (src/hash.rs:68).  Strings are lists
of byte values.  `ok none` is the `Err` return (wrong length or decode
failure); `ok (some bytes)` is a successful parse; the write loop
`result[i] = v` would panic if the decoder produced more than 32 bytes.
Bytes beyond those decoded keep the `[0; 32]` initialization. -/
def Sha256Hash.from_str (s : List Nat) : RustOutcome (Option (List Nat)) :=
  if s.length ≠ 64 then .ok none
  else
    match fromHex s with
    | some r => if r.length ≤ 32 then .ok (some (r ++ List.replicate (32 - r.length) 0)) else .panic
    | none => .ok none

/-- Lowercase hexadecimal character of a value below 16, per the character
table of `rustc_serialize::hex::to_hex`. -/
def hexChar (v : Nat) : Nat := if v < 10 then 48 + v else 97 + v - 10

/-- Embedding of `to_hex` of rustc_serialize as used by the `Display`
instance of `Sha256Hash` (src/hash.rs:62): two lowercase hexadecimal
characters per byte, in order. -/
def toHex : List Nat → List Nat
  | [] => []
  | b :: rest => hexChar (b / 16) :: hexChar (b % 16) :: toHex rest

/-- Reference decoder for whitespace-free hexadecimal strings: consecutive
pairs of hex digits to bytes, in order. -/
def hexDecode : List Nat → List Nat
  | a :: b :: rest => (hexVal a * 16 + hexVal b) :: hexDecode rest
  | _ => []

/-- U256 value of the all-ones digest, `2^256 - 1`; the constant `MAX` of the
target calculus (parsed from the 64-f string at src/hash.rs:91). -/
def U256MAX : Nat := 2 ^ 256 - 1

/-- Largest u64, `std::u64::MAX = 2^64 - 1`. -/
def u64MAX : Nat := 2 ^ 64 - 1

/-- Embedding of `Sha256Hash::target_for_hash_attempts_expected`
(src/hash.rs:88): `MAX / n` as U256, rendered as 32 big-endian bytes.  The
U256 division panics when `n = 0`. -/
def target_for_hash_attempts_expected (n : Nat) : RustOutcome (List Nat) :=
  if n = 0 then .panic else .ok (toBE 32 (U256MAX / n))

/-- Embedding of `Sha256Hash::target_for_duration` (src/hash.rs:101), after
the external humantime parse: `duration.as_secs() * hash_rate` hashes are
expected (u64 multiplication, wrapping), and the target for that count is
computed. -/
def target_for_duration (durationSecs hashRate : Nat) : RustOutcome (List Nat) :=
  target_for_hash_attempts_expected (durationSecs * hashRate % 2 ^ 64)

/-- Embedding of `Sha256Hash::expected_attempts_to_solve` (src/hash.rs:108):
`MAX / target` as U256, narrowed with `as_u64`.  The division panics on the
all-zero target; `as_u64` panics when the quotient exceeds `u64::MAX`. -/
def expected_attempts_to_solve (target : List Nat) : RustOutcome Nat :=
  if beVal target = 0 then .panic
  else if U256MAX / beVal target ≤ u64MAX then .ok (U256MAX / beVal target)
  else .panic

/-- Embedding of `HashSolution` (src/hash.rs:149). -/
structure HashSolution where
  nonce : Nat
  attempts : Nat
  hash : List Nat
deriving DecidableEq

/-- Embedding of `HashResponse` (src/hash.rs:191), the worker-to-farm
message variants. -/
inductive HashResponse where
  | success : HashSolution → HashResponse
  | miss : HashResponse
  | noSolution : HashResponse
  | progressTick : HashResponse
deriving DecidableEq

/-- Embedding of `HashWorker` (src/hash.rs:156): the assigned half-open
nonce range, the cloned hasher and the shared target.  The mpsc channel
handle is replaced by returning the list of sent messages. -/
structure HashWorker where
  start_nonce : Nat
  end_nonce : Nat
  hasher : Sha256Hasher
  target : List Nat
deriving DecidableEq

/-- Loop of `HashWorker::solve` (src/hash.rs:164), with fuel
`end_nonce - n` standing for the guard `n < end_nonce`: each miss sends
`Miss` and advances, the first digest below the target sends `Success`
(with the `attempts: 0` field of the source) and stops, and running out of
range sends `NoSolution`. -/
def HashWorker.solveGo (w : HashWorker) : Nat → Nat → List HashResponse
  | _, 0 => [.noSolution]
  | n, fuel + 1 =>
    if lexLtBytes (w.hasher.hash_with_nonce n) w.target then
      [.success ⟨n, 0, w.hasher.hash_with_nonce n⟩]
    else .miss :: w.solveGo (n + 1) fuel

/-- Embedding of `HashWorker::solve` (src/hash.rs:164): the sequence of
messages the worker sends on its channel. -/
def HashWorker.solve (w : HashWorker) : List HashResponse :=
  w.solveGo w.start_nonce (w.end_nonce - w.start_nonce)

/-- Loop of `HashWorkerFarm::new` (src/hash.rs:211): builds the workers with
`remaining` workers still to create (the source's `i + 1 == num_workers` is
`remaining = 1`).  `marker` is the u64 `nonce_marker`, advanced by
`range_per_nonce` with u64 wrap-around; the final worker's end is
`std::u64::MAX`. -/
def buildWorkers (base target : List Nat) (rangePerNonce : Nat) : Nat → Nat → List HashWorker
  | _, 0 => []
  | marker, 1 => [⟨marker, u64MAX, ⟨base⟩, target⟩]
  | marker, k + 2 =>
    ⟨marker, (marker + rangePerNonce) % 2 ^ 64, ⟨base⟩, target⟩ ::
      buildWorkers base target rangePerNonce ((marker + rangePerNonce) % 2 ^ 64) (k + 1)

/-- Embedding of `HashWorkerFarm::new` (src/hash.rs:206): the u64 division
`std::u64::MAX / num_workers as u64` panics when `num_workers = 0`;
otherwise the workers are built from marker 0. -/
def HashWorkerFarm.new (base target : List Nat) (numWorkers : Nat) :
    RustOutcome (List HashWorker) :=
  if numWorkers = 0 then .panic
  else .ok (buildWorkers base target (u64MAX / numWorkers) 0 numWorkers)

/-- Byte values of the base string `b"anarbitrarystring"` used by the test
farm (src/hash.rs:349). -/
def testFarmBase : List Nat :=
  [97, 110, 97, 114, 98, 105, 116, 114, 97, 114, 121, 115, 116, 114, 105, 110, 103]

/-- Embedding of `HashWorkerFarm::new_test` (src/hash.rs:347): the same
construction loop with the fixed base and the all-zero (unsolvable) target;
the same division panics when `num_workers = 0`. -/
def HashWorkerFarm.new_test (numWorkers : Nat) : RustOutcome (List HashWorker) :=
  if numWorkers = 0 then .panic
  else .ok (buildWorkers testFarmBase (List.replicate 32 0) (u64MAX / numWorkers) 0 numWorkers)

/-- Start/end pairs of a worker list. -/
def workerRanges (ws : List HashWorker) : List (Nat × Nat) :=
  ws.map (fun w => (w.start_nonce, w.end_nonce))

/-- Aggregation loop of `HashWorkerFarm::solve` (src/hash.rs:298) over a
finite prefix of the channel's message stream.  `attemptCount` is the u64
miss counter, `completed` the u8 completed-worker counter (the comparison
casts `workers.len()` to u8).  `some (some sol)` is the Success return,
`some none` the no-solution return, and `none` means the prefix was consumed
with the loop still running (the channel never closes while the farm holds
a sender, so the loop's fall-through is unreachable). -/
def aggregate (numWorkers : Nat) : Nat → Nat → List HashResponse → Option (Option HashSolution)
  | _, _, [] => none
  | attemptCount, _, .success sol :: _ => some (some ⟨sol.nonce, attemptCount, sol.hash⟩)
  | attemptCount, completed, .miss :: rest =>
    aggregate numWorkers ((attemptCount + 1) % 2 ^ 64) completed rest
  | attemptCount, completed, .noSolution :: rest =>
    if (completed + 1) % 256 = numWorkers % 256 then some none
    else aggregate numWorkers attemptCount ((completed + 1) % 256) rest
  | attemptCount, completed, .progressTick :: rest =>
    aggregate numWorkers attemptCount completed rest

/-- Result model of `HashWorkerFarm::solve` (src/hash.rs:233): before any
worker is spawned, the milestone phase calls
`expected_attempts_to_solve`, `p90_attempts_to_solve` and
`p99_attempts_to_solve`; the p90/p99 helpers call
`expected_attempts_to_solve` again and the standard-deviation helper, whose
only panic is the same `as_u64` narrowing of the same `MAX / target`
quotient, after which only float arithmetic (which cannot panic) feeds the
progress display.  The milestone phase is therefore modeled by the panic
behavior of `expected_attempts_to_solve`; afterwards the response loop is
`aggregate` over the observed message prefix. -/
def HashWorkerFarm.solveModel (target : List Nat) (numWorkers : Nat)
    (responses : List HashResponse) : RustOutcome (Option (Option HashSolution)) :=
  match expected_attempts_to_solve target with
  | .panic => .panic
  | .ok _ => .ok (aggregate numWorkers 0 0 responses)

/-- Count of miss messages in a response list. -/
def countMiss (rs : List HashResponse) : Nat :=
  rs.countP (fun r => match r with | .miss => true | _ => false)

/-- Count of no-solution messages in a response list. -/
def countNoSolution (rs : List HashResponse) : Nat :=
  rs.countP (fun r => match r with | .noSolution => true | _ => false)

/-- Test for a success message. -/
def isSuccess : HashResponse → Bool
  | .success _ => true
  | _ => false

/-! Helper lemmas about the byte encodings. -/

theorem toBE_length (k x : Nat) : (toBE k x).length = k := by
  induction k generalizing x with
  | zero => rfl
  | succ k ih => simp [toBE, ih]

theorem mod_mul_decomp (x b c : Nat) : x % (b * c) = b * (x / b % c) + x % b := by
  conv_lhs => rw [← Nat.div_add_mod (x % (b * c)) b]
  rw [← Nat.mod_mul_right_div_self, Nat.mod_mod_of_dvd x ⟨c, rfl⟩]

theorem foldl_toBE (k x a : Nat) :
    List.foldl (fun acc b => acc * 256 + b) a (toBE k x) = a * 256 ^ k + x % 256 ^ k := by
  induction k generalizing x a with
  | zero => simp [toBE, Nat.mod_one]
  | succ k ih =>
    rw [toBE, List.foldl_append, ih]
    have h : x % 256 ^ (k + 1) = 256 * (x / 256 % 256 ^ k) + x % 256 := by
      rw [pow_succ, mul_comm (256 ^ k) 256, mod_mul_decomp]
    simp only [List.foldl_cons, List.foldl_nil]
    rw [h, pow_succ]
    ring

theorem beVal_toBE (k x : Nat) : beVal (toBE k x) = x % 256 ^ k := by
  unfold beVal
  rw [foldl_toBE]
  simp

/-! Claim C9. -/

/-- Claim C9: the `num_workers >= 1` precondition of farm construction is not
validated; both `HashWorkerFarm::new` and `HashWorkerFarm::new_test` with
`num_workers = 0` hit the u64 division `std::u64::MAX / 0` and panic rather
than returning a farm or an error. -/
theorem new_zero_workers_panics :
    (∀ base target, HashWorkerFarm.new base target 0 = RustOutcome.panic) ∧
    HashWorkerFarm.new_test 0 = RustOutcome.panic := by
  exact ⟨fun base target => rfl, rfl⟩

/-! Claim C4. -/

/-- Claim C4: the hasher computes `digest(base, nonce) =
SHA256(base ++ nonce_to_bytes nonce)` with `nonce_to_bytes` the 8-byte
little-endian encoding; it is pure and deterministic (equal inputs give
equal digests); and `digest(b"helloworld", 0)` is the digest whose
hexadecimal rendering is
c81ee5e927e9d7987e1ad7c92eb63ecb78d9a7a5949de5462f5f1d79d6b5d0d1. -/
theorem hash_with_nonce_spec :
    (∀ base nonce, Sha256Hasher.hash_with_nonce ⟨base⟩ nonce =
      sha256 (base ++ nonce_to_bytes nonce)) ∧
    (∀ b1 b2 n1 n2, b1 = b2 → n1 = n2 →
      Sha256Hasher.hash_with_nonce ⟨b1⟩ n1 = Sha256Hasher.hash_with_nonce ⟨b2⟩ n2) ∧
    Sha256Hasher.hash_with_nonce ⟨[104, 101, 108, 108, 111, 119, 111, 114, 108, 100]⟩ 0 =
      [200, 30, 229, 233, 39, 233, 215, 152, 126, 26, 215, 201, 46, 182, 62, 203,
       120, 217, 167, 165, 148, 157, 229, 70, 47, 95, 29, 121, 214, 181, 208, 209] ∧
    toHex (Sha256Hasher.hash_with_nonce ⟨[104, 101, 108, 108, 111, 119, 111, 114, 108, 100]⟩ 0) =
      [99, 56, 49, 101, 101, 53, 101, 57, 50, 55, 101, 57, 100, 55, 57, 56,
       55, 101, 49, 97, 100, 55, 99, 57, 50, 101, 98, 54, 51, 101, 99, 98,
       55, 56, 100, 57, 97, 55, 97, 53, 57, 52, 57, 100, 101, 53, 52, 54,
       50, 102, 53, 102, 49, 100, 55, 57, 100, 54, 98, 53, 100, 48, 100, 49] := by
  refine ⟨fun base nonce => rfl, fun b1 b2 n1 n2 hb hn => by rw [hb, hn], by decide, by decide⟩

/-- Witness for claim C4's determinism hypothesis, at a concrete base and
nonce. -/
theorem hash_with_nonce_spec_witness :
    Sha256Hasher.hash_with_nonce ⟨[1, 2]⟩ 3 = Sha256Hasher.hash_with_nonce ⟨[1, 2]⟩ 3 :=
  hash_with_nonce_spec.2.1 [1, 2] [1, 2] 3 3 rfl rfl

/-! Claim C5. -/

/-- Claim C5: for every `n >= 1`, `target_for_hash_attempts_expected n`
returns the 32-byte big-endian encoding of `floor((2^256 - 1) / n)`; for
`n = 1` it is the all-ones digest. -/
theorem target_for_attempts_spec :
    target_for_hash_attempts_expected 1 = RustOutcome.ok (List.replicate 32 255) ∧
    (∀ n, 1 ≤ n → ∃ bytes, target_for_hash_attempts_expected n = RustOutcome.ok bytes ∧
      bytes.length = 32 ∧ beVal bytes = U256MAX / n) := by
  constructor
  · decide
  · intro n hn
    refine ⟨toBE 32 (U256MAX / n), ?_, toBE_length 32 _, ?_⟩
    · unfold target_for_hash_attempts_expected
      rw [if_neg (by omega)]
    · rw [beVal_toBE]
      have hlt : U256MAX / n < 256 ^ 32 := by
        have h1 : U256MAX / n ≤ U256MAX := Nat.div_le_self _ _
        have h2 : (256 : Nat) ^ 32 = 2 ^ 256 := by norm_num
        unfold U256MAX at h1 ⊢
        omega
      exact Nat.mod_eq_of_lt hlt

/-- Witness for claim C5 at `n = 2`. -/
theorem target_for_attempts_spec_witness :
    ∃ bytes, target_for_hash_attempts_expected 2 = RustOutcome.ok bytes ∧
      bytes.length = 32 ∧ beVal bytes = U256MAX / 2 :=
  target_for_attempts_spec.2 2 (by omega)

/-! Claim C6. -/

/-- Claim C6: a zero expected-attempts input is not rejected as a reported
input error; `target_for_hash_attempts_expected 0` and `target_for_duration`
with a zero seconds-times-rate product panic on the U256 division by zero
(the functions return `Self` and have no error channel at all), and never
return a target. -/
theorem target_zero_attempts_panics :
    target_for_hash_attempts_expected 0 = RustOutcome.panic ∧
    (∀ durationSecs hashRate, durationSecs * hashRate % 2 ^ 64 = 0 →
      target_for_duration durationSecs hashRate = RustOutcome.panic) := by
  refine ⟨rfl, fun d h hz => ?_⟩
  unfold target_for_duration target_for_hash_attempts_expected
  rw [if_pos hz]

/-- Witness for claim C6: a sub-second duration (0 whole seconds) at a
positive hash rate panics. -/
theorem target_zero_attempts_panics_witness :
    target_for_duration 0 500 = RustOutcome.panic :=
  target_zero_attempts_panics.2 0 500 (by decide)

/-! Claim C10. -/

/-- Claim C10: `expected_attempts_to_solve` panics on every nonzero target
below `2^192`, because the 256-bit quotient `MAX / target` then exceeds
`u64::MAX` and `as_u64` panics; consequently `solve()` on such a target
panics during the milestone computation, for every worker count and every
worker-response sequence. -/
theorem expected_attempts_narrowing_panics (target : List Nat)
    (h1 : 1 ≤ beVal target) (h2 : beVal target < 2 ^ 192) :
    expected_attempts_to_solve target = RustOutcome.panic ∧
    ∀ numWorkers responses,
      HashWorkerFarm.solveModel target numWorkers responses = RustOutcome.panic := by
  have hgt : ¬ U256MAX / beVal target ≤ u64MAX := by
    have hmul : 2 ^ 64 * beVal target ≤ U256MAX := by
      have : 2 ^ 64 * beVal target ≤ 2 ^ 64 * (2 ^ 192 - 1) :=
        Nat.mul_le_mul_left _ (by omega)
      unfold U256MAX
      omega
    have hdiv : 2 ^ 64 ≤ U256MAX / beVal target :=
      (Nat.le_div_iff_mul_le (by omega)).mpr (by omega)
    unfold u64MAX
    omega
  have hpanic : expected_attempts_to_solve target = RustOutcome.panic := by
    unfold expected_attempts_to_solve
    rw [if_neg (by omega), if_neg hgt]
  refine ⟨hpanic, fun numWorkers responses => ?_⟩
  unfold HashWorkerFarm.solveModel
  rw [hpanic]

/-- Witness for claim C10 at the target of value 1 (bytes 31 zeros then 1). -/
theorem expected_attempts_narrowing_panics_witness :
    expected_attempts_to_solve (List.replicate 31 0 ++ [1]) = RustOutcome.panic ∧
    HashWorkerFarm.solveModel (List.replicate 31 0 ++ [1]) 4 [] = RustOutcome.panic := by
  have h := expected_attempts_narrowing_panics (List.replicate 31 0 ++ [1])
    (by decide) (by decide)
  exact ⟨h.1, h.2 4 []⟩

/-! Claim C2. -/

theorem solveGo_all_miss (w : HashWorker) : ∀ fuel n,
    (∀ m, n ≤ m → m < n + fuel → lexLtBytes (w.hasher.hash_with_nonce m) w.target = false) →
    w.solveGo n fuel = List.replicate fuel HashResponse.miss ++ [HashResponse.noSolution] := by
  intro fuel
  induction fuel with
  | zero => intro n _; rfl
  | succ fuel ih =>
    intro n hmiss
    rw [HashWorker.solveGo, if_neg (by simp [hmiss n (Nat.le_refl n) (by omega)])]
    rw [ih (n + 1) (fun m h1 h2 => hmiss m (by omega) (by omega))]
    simp [List.replicate_succ]

theorem solveGo_first_hit (w : HashWorker) : ∀ fuel n n0, n ≤ n0 → n0 < n + fuel →
    lexLtBytes (w.hasher.hash_with_nonce n0) w.target = true →
    (∀ m, n ≤ m → m < n0 → lexLtBytes (w.hasher.hash_with_nonce m) w.target = false) →
    w.solveGo n fuel = List.replicate (n0 - n) HashResponse.miss ++
      [HashResponse.success ⟨n0, 0, w.hasher.hash_with_nonce n0⟩] := by
  intro fuel
  induction fuel with
  | zero => intro n n0 h1 h2; omega
  | succ fuel ih =>
    intro n n0 h1 h2 hhit hmiss
    rcases Nat.eq_or_lt_of_le h1 with heq | hlt
    · subst heq
      rw [HashWorker.solveGo, if_pos (by simp [hhit])]
      simp
    · rw [HashWorker.solveGo, if_neg (by simp [hmiss n (Nat.le_refl n) hlt])]
      rw [ih (n + 1) n0 hlt (by omega) hhit (fun m ha hb => hmiss m (by omega) hb)]
      have hrep : n0 - n = (n0 - (n + 1)) + 1 := by omega
      rw [hrep, List.replicate_succ]
      simp

/-- Claim C2: the worker enumerates its half-open range in ascending order
from `start_nonce`: every nonce whose digest is not below the target emits
exactly one Miss; the first nonce in the range whose digest is below the
target emits a Success carrying that nonce and digest and nothing further;
and if no nonce of the range hits, the worker emits `end - start` Misses
followed by exactly one NoSolution. -/
theorem worker_solve_spec (base target : List Nat) (s e : Nat) :
    (∀ n0, s ≤ n0 → n0 < e →
      lexLtBytes (Sha256Hasher.hash_with_nonce ⟨base⟩ n0) target = true →
      (∀ m, s ≤ m → m < n0 → lexLtBytes (Sha256Hasher.hash_with_nonce ⟨base⟩ m) target = false) →
      HashWorker.solve ⟨s, e, ⟨base⟩, target⟩ =
        List.replicate (n0 - s) HashResponse.miss ++
          [HashResponse.success ⟨n0, 0, Sha256Hasher.hash_with_nonce ⟨base⟩ n0⟩]) ∧
    ((∀ m, s ≤ m → m < e → lexLtBytes (Sha256Hasher.hash_with_nonce ⟨base⟩ m) target = false) →
      HashWorker.solve ⟨s, e, ⟨base⟩, target⟩ =
        List.replicate (e - s) HashResponse.miss ++ [HashResponse.noSolution]) := by
  constructor
  · intro n0 h1 h2 hhit hmiss
    have he : s + (e - s) = e := by omega
    exact solveGo_first_hit ⟨s, e, ⟨base⟩, target⟩ (e - s) s n0 h1 (by omega) hhit hmiss
  · intro hmiss
    exact solveGo_all_miss ⟨s, e, ⟨base⟩, target⟩ (e - s) s
      (fun m ha hb => hmiss m ha (by omega))

set_option maxRecDepth 40000 in
/-- Witness for claim C2: over the range `[0, 2)` with base "abc" and the
all-zero target every nonce misses and the worker exhausts; over the range
`[5, 7)` with the all-ones target the first nonce hits immediately. -/
theorem worker_solve_spec_witness :
    HashWorker.solve ⟨0, 2, ⟨[97, 98, 99]⟩, List.replicate 32 0⟩ =
      [HashResponse.miss, HashResponse.miss, HashResponse.noSolution] ∧
    HashWorker.solve ⟨5, 7, ⟨[97, 98, 99]⟩, List.replicate 32 255⟩ =
      [HashResponse.success ⟨5, 0, Sha256Hasher.hash_with_nonce ⟨[97, 98, 99]⟩ 5⟩] := by
  constructor
  · have h := (worker_solve_spec [97, 98, 99] (List.replicate 32 0) 0 2).2
    have hm : ∀ m, 0 ≤ m → m < 2 →
        lexLtBytes (Sha256Hasher.hash_with_nonce ⟨[97, 98, 99]⟩ m) (List.replicate 32 0) = false := by
      intro m _ hm2
      interval_cases m
      · decide
      · decide
    simpa using h hm
  · have h := (worker_solve_spec [97, 98, 99] (List.replicate 32 255) 5 7).1
    have hh := h 5 (Nat.le_refl 5) (by omega) (by decide) (fun m ha hb => absurd hb (by omega))
    simpa using hh

/-! Claim C3. -/

theorem countMiss_cons_miss (rs : List HashResponse) :
    countMiss (HashResponse.miss :: rs) = countMiss rs + 1 := by
  simp [countMiss, List.countP_cons]

theorem countMiss_cons_noSolution (rs : List HashResponse) :
    countMiss (HashResponse.noSolution :: rs) = countMiss rs := by
  simp [countMiss, List.countP_cons]

theorem countMiss_cons_tick (rs : List HashResponse) :
    countMiss (HashResponse.progressTick :: rs) = countMiss rs := by
  simp [countMiss, List.countP_cons]

theorem countNoSolution_cons_miss (rs : List HashResponse) :
    countNoSolution (HashResponse.miss :: rs) = countNoSolution rs := by
  simp [countNoSolution, List.countP_cons]

theorem countNoSolution_cons_noSolution (rs : List HashResponse) :
    countNoSolution (HashResponse.noSolution :: rs) = countNoSolution rs + 1 := by
  simp [countNoSolution, List.countP_cons]

theorem countNoSolution_cons_tick (rs : List HashResponse) :
    countNoSolution (HashResponse.progressTick :: rs) = countNoSolution rs := by
  simp [countNoSolution, List.countP_cons]

theorem aggregate_success_pre (nw : Nat) (hnw : nw ≤ 255) :
    ∀ pre a c sol rest, (∀ r ∈ pre, isSuccess r = false) →
      c + countNoSolution pre < nw → a + countMiss pre ≤ u64MAX →
      aggregate nw a c (pre ++ HashResponse.success sol :: rest) =
        some (some ⟨sol.nonce, a + countMiss pre, sol.hash⟩) := by
  intro pre
  induction pre with
  | nil =>
    intro a c sol rest _ _ _
    simp [aggregate, countMiss]
  | cons r pre ih =>
    intro a c sol rest hns hcount hmiss
    have hr := hns r (List.mem_cons_self r pre)
    have htail : ∀ x ∈ pre, isSuccess x = false :=
      fun x hx => hns x (List.mem_cons_of_mem r hx)
    cases r with
    | success s => simp [isSuccess] at hr
    | miss =>
      rw [countMiss_cons_miss] at hmiss
      rw [countNoSolution_cons_miss] at hcount
      have hwrap : (a + 1) % 2 ^ 64 = a + 1 := by
        apply Nat.mod_eq_of_lt
        unfold u64MAX at hmiss
        omega
      rw [List.cons_append, aggregate, hwrap, ih (a + 1) c sol rest htail (by omega) (by omega)]
      rw [countMiss_cons_miss]
      have harith : a + 1 + countMiss pre = a + (countMiss pre + 1) := by omega
      rw [harith]
    | noSolution =>
      rw [countNoSolution_cons_noSolution] at hcount
      rw [countMiss_cons_noSolution] at hmiss
      have hc1 : (c + 1) % 256 = c + 1 := Nat.mod_eq_of_lt (by omega)
      have hne : (c + 1) % 256 ≠ nw % 256 := by
        rw [hc1, Nat.mod_eq_of_lt (by omega : nw < 256)]
        omega
      rw [List.cons_append, aggregate, if_neg hne, hc1,
        ih a (c + 1) sol rest htail (by omega) (by omega)]
      rw [countMiss_cons_noSolution]
    | progressTick =>
      rw [countNoSolution_cons_tick] at hcount
      rw [countMiss_cons_tick] at hmiss
      rw [List.cons_append, aggregate, ih a c sol rest htail (by omega) (by omega)]
      rw [countMiss_cons_tick]

theorem aggregate_none_exhausted (nw : Nat) (hnw : nw ≤ 255) :
    ∀ rs a c, c < nw → aggregate nw a c rs = some none →
      ∃ pre post, rs = pre ++ HashResponse.noSolution :: post ∧
        (∀ r ∈ pre, isSuccess r = false) ∧ c + countNoSolution pre + 1 = nw := by
  intro rs
  induction rs with
  | nil => intro a c _ h; simp [aggregate] at h
  | cons r rest ih =>
    intro a c hc h
    cases r with
    | success s => simp [aggregate] at h
    | miss =>
      rw [aggregate] at h
      obtain ⟨pre, post, heq, hns, hcount⟩ := ih ((a + 1) % 2 ^ 64) c hc h
      refine ⟨HashResponse.miss :: pre, post, by rw [heq, List.cons_append], ?_, ?_⟩
      · intro x hx
        rcases List.mem_cons.mp hx with hx1 | hx2
        · rw [hx1]; rfl
        · exact hns x hx2
      · rw [countNoSolution_cons_miss]; omega
    | noSolution =>
      rw [aggregate] at h
      by_cases hb : (c + 1) % 256 = nw % 256
      · have hc1 : (c + 1) % 256 = c + 1 := Nat.mod_eq_of_lt (by omega)
        have hnwm : nw % 256 = nw := Nat.mod_eq_of_lt (by omega)
        refine ⟨[], rest, rfl, by simp, ?_⟩
        simp [countNoSolution]
        omega
      · rw [if_neg hb] at h
        have hc1 : (c + 1) % 256 = c + 1 := Nat.mod_eq_of_lt (by omega)
        rw [hc1] at h hb
        have hlt : c + 1 < nw := by
          rcases Nat.lt_or_ge (c + 1) nw with hlt | hge
          · exact hlt
          · exfalso
            have : c + 1 = nw := by omega
            rw [this, Nat.mod_eq_of_lt (by omega : nw < 256)] at hb
            exact hb rfl
        obtain ⟨pre, post, heq, hns, hcount⟩ := ih a (c + 1) hlt h
        refine ⟨HashResponse.noSolution :: pre, post, by rw [heq, List.cons_append], ?_, ?_⟩
        · intro x hx
          rcases List.mem_cons.mp hx with hx1 | hx2
          · rw [hx1]; rfl
          · exact hns x hx2
        · rw [countNoSolution_cons_noSolution]; omega
    | progressTick =>
      rw [aggregate] at h
      obtain ⟨pre, post, heq, hns, hcount⟩ := ih a c hc h
      refine ⟨HashResponse.progressTick :: pre, post, by rw [heq, List.cons_append], ?_, ?_⟩
      · intro x hx
        rcases List.mem_cons.mp hx with hx1 | hx2
        · rw [hx1]; rfl
        · exact hns x hx2
      · rw [countNoSolution_cons_tick]; omega

/-- Claim C3: over every worker-response sequence, the aggregation loop of
`HashWorkerFarm::solve` returns, at the first Success message, a solution
carrying that message's nonce and digest and the number of Miss messages
seen so far as `attempts`; and it returns "no solution" exactly at a
NoSolution message that is preceded by no Success and by exactly
`num_workers - 1` earlier NoSolution messages, never before every worker
has reported. -/
theorem aggregate_spec (nw : Nat) (h1 : 1 ≤ nw) (h255 : nw ≤ 255) :
    (∀ pre sol rest, (∀ r ∈ pre, isSuccess r = false) →
      countNoSolution pre < nw → countMiss pre ≤ u64MAX →
      aggregate nw 0 0 (pre ++ HashResponse.success sol :: rest) =
        some (some ⟨sol.nonce, countMiss pre, sol.hash⟩)) ∧
    (∀ rs, aggregate nw 0 0 rs = some none →
      ∃ pre post, rs = pre ++ HashResponse.noSolution :: post ∧
        (∀ r ∈ pre, isSuccess r = false) ∧ countNoSolution pre + 1 = nw) := by
  constructor
  · intro pre sol rest hns hcount hmiss
    have h := aggregate_success_pre nw h255 pre 0 0 sol rest hns (by omega) (by omega)
    simpa using h
  · intro rs h
    obtain ⟨pre, post, heq, hns, hcount⟩ :=
      aggregate_none_exhausted nw h255 rs 0 0 (by omega) h
    exact ⟨pre, post, heq, hns, by omega⟩

/-- Witness for claim C3 with two workers: a Success after one NoSolution
and three Misses yields that nonce with three attempts; two NoSolutions
yield the no-solution return with one earlier NoSolution. -/
theorem aggregate_spec_witness :
    aggregate 2 0 0 ([HashResponse.miss, HashResponse.progressTick, HashResponse.miss,
        HashResponse.noSolution, HashResponse.miss] ++
        HashResponse.success ⟨7, 0, [1]⟩ :: []) =
      some (some ⟨7, 3, [1]⟩) ∧
    (∃ pre post,
      ([HashResponse.miss, HashResponse.noSolution, HashResponse.noSolution] :
          List HashResponse) = pre ++ HashResponse.noSolution :: post ∧
        (∀ r ∈ pre, isSuccess r = false) ∧ countNoSolution pre + 1 = 2) := by
  constructor
  · have h := (aggregate_spec 2 (by omega) (by omega)).1
      [HashResponse.miss, HashResponse.progressTick, HashResponse.miss,
        HashResponse.noSolution, HashResponse.miss] ⟨7, 0, [1]⟩ []
      (by decide) (by decide) (by decide)
    simpa using h
  · exact (aggregate_spec 2 (by omega) (by omega)).2
      [HashResponse.miss, HashResponse.noSolution, HashResponse.noSolution] (by decide)

/-! Claim C1. -/

theorem buildWorkers_length (base target : List Nat) (r : Nat) :
    ∀ k marker, (buildWorkers base target r marker k).length = k := by
  intro k
  induction k using Nat.strong_induction_on with
  | _ k ih =>
    intro marker
    rcases k with _ | _ | n
    · rfl
    · rfl
    · rw [buildWorkers]
      simp only [List.length_cons]
      rw [ih (n + 1) (by omega)]

theorem buildWorkers_getD (base target : List Nat) (r : Nat) :
    ∀ k marker i, i < k → marker + k * r < 2 ^ 64 →
      (workerRanges (buildWorkers base target r marker k)).getD i (0, 0) =
        (marker + i * r, if i + 1 = k then u64MAX else marker + (i + 1) * r) := by
  intro k
  induction k using Nat.strong_induction_on with
  | _ k ih =>
    intro marker i hik hbound
    rcases k with _ | _ | n
    · omega
    · interval_cases i
      simp [buildWorkers, workerRanges]
    · have hrle : r ≤ (n + 1 + 1) * r := Nat.le_mul_of_pos_left r (by omega)
      have hmod : (marker + r) % 2 ^ 64 = marker + r := Nat.mod_eq_of_lt (by omega)
      rcases i with _ | j
      · rw [buildWorkers]
        simp only [workerRanges, List.map_cons, List.getD_cons_zero]
        rw [hmod]
        have hne : ¬ (0 + 1 = n + 2) := by omega
        rw [if_neg hne]
        simp
      · rw [buildWorkers]
        simp only [workerRanges, List.map_cons, List.getD_cons_succ]
        have hbd : (marker + r) % 2 ^ 64 + (n + 1) * r < 2 ^ 64 := by
          rw [hmod]
          have harith : marker + r + (n + 1) * r = marker + (n + 2) * r := by ring
          rw [harith]
          exact hbound
        have htail := ih (n + 1) (by omega) ((marker + r) % 2 ^ 64) j (by omega) hbd
        simp only [workerRanges] at htail
        rw [htail, hmod]
        simp only [Prod.mk.injEq]
        constructor
        · ring
        · by_cases hc : j + 1 = n + 1
          · have hc2 : j + 1 + 1 = n + 2 := by omega
            rw [if_pos hc, if_pos hc2]
          · have hc2 : ¬ (j + 1 + 1 = n + 2) := by omega
            rw [if_neg hc, if_neg hc2]
            ring

/-- Claim C1 (amended): for every `num_workers` in `1..=255`,
`HashWorkerFarm::new` builds `num_workers` contiguous half-open ranges that
are pairwise disjoint and sorted ascending by start, starting at 0, whose
union is exactly `[0, 2^64 - 1)` — not `[0, 2^64)` — with the last range's
end equal to `std::u64::MAX = 2^64 - 1`, so the single nonce `2^64 - 1` is
left uncovered. -/
theorem farm_partition_spec (base target : List Nat) (nw : Nat)
    (h1 : 1 ≤ nw) (h2 : nw ≤ 255) :
    ∃ ws, HashWorkerFarm.new base target nw = RustOutcome.ok ws ∧
      ws.length = nw ∧
      (∀ i j, i < j → j < nw →
        ((workerRanges ws).getD i (0, 0)).1 < ((workerRanges ws).getD j (0, 0)).1 ∧
        ((workerRanges ws).getD i (0, 0)).2 ≤ ((workerRanges ws).getD j (0, 0)).1) ∧
      (∀ i, i + 1 < nw →
        ((workerRanges ws).getD i (0, 0)).2 = ((workerRanges ws).getD (i + 1) (0, 0)).1) ∧
      ((workerRanges ws).getD 0 (0, 0)).1 = 0 ∧
      ((workerRanges ws).getD (nw - 1) (0, 0)).2 = u64MAX ∧
      (∀ x, x < u64MAX ↔ ∃ i, i < nw ∧ ((workerRanges ws).getD i (0, 0)).1 ≤ x ∧
        x < ((workerRanges ws).getD i (0, 0)).2) := by
  have hM : u64MAX = 18446744073709551615 := by norm_num [u64MAX]
  have hnwpos : 0 < nw := h1
  have hr1 : 1 ≤ u64MAX / nw := by
    rw [Nat.one_le_div_iff hnwpos]
    omega
  have hprod : nw * (u64MAX / nw) ≤ u64MAX := by
    rw [mul_comm]
    exact Nat.div_mul_le_self u64MAX nw
  have hbound : 0 + nw * (u64MAX / nw) < 2 ^ 64 := by omega
  have hget : ∀ i, i < nw →
      (workerRanges (buildWorkers base target (u64MAX / nw) 0 nw)).getD i (0, 0) =
        (i * (u64MAX / nw), if i + 1 = nw then u64MAX else (i + 1) * (u64MAX / nw)) := by
    intro i hi
    rw [buildWorkers_getD base target (u64MAX / nw) nw 0 i hi hbound]
    simp
  refine ⟨buildWorkers base target (u64MAX / nw) 0 nw, ?_, ?_, ?_, ?_, ?_, ?_, ?_⟩
  · unfold HashWorkerFarm.new
    rw [if_neg (by omega)]
  · exact buildWorkers_length base target (u64MAX / nw) nw 0
  · intro i j hij hj
    rw [hget i (by omega), hget j (by omega)]
    have hij1 : ¬ (i + 1 = nw) := by omega
    rw [if_neg hij1]
    constructor
    · exact (Nat.mul_lt_mul_right hr1).mpr (by omega)
    · exact Nat.mul_le_mul_right _ (by omega)
  · intro i hi
    rw [hget i (by omega), hget (i + 1) (by omega)]
    rw [if_neg (by omega)]
  · rw [hget 0 (by omega)]
    simp
  · rw [hget (nw - 1) (by omega)]
    rw [if_pos (by omega)]
  · intro x
    constructor
    · intro hx
      by_cases hcase : x / (u64MAX / nw) < nw - 1
      · refine ⟨x / (u64MAX / nw), by omega, ?_⟩
        rw [hget _ (by omega)]
        rw [if_neg (by omega)]
        refine ⟨Nat.div_mul_le_self x _, ?_⟩
        exact (Nat.div_lt_iff_lt_mul (by omega)).mp (Nat.lt_succ_self _)
      · refine ⟨nw - 1, by omega, ?_⟩
        rw [hget _ (by omega)]
        rw [if_pos (by omega)]
        refine ⟨?_, hx⟩
        have hle : nw - 1 ≤ x / (u64MAX / nw) := by omega
        exact (Nat.le_div_iff_mul_le (by omega)).mp hle
    · rintro ⟨i, hi, hstart, hend⟩
      rw [hget i hi] at hstart hend
      by_cases hc : i + 1 = nw
      · rw [if_pos hc] at hend
        exact hend
      · rw [if_neg hc] at hend
        have hle : (i + 1) * (u64MAX / nw) ≤ nw * (u64MAX / nw) :=
          Nat.mul_le_mul_right _ (by omega)
        omega

/-- Witness for claim C1's amended partition property at three workers. -/
theorem farm_partition_spec_witness :
    ∃ ws, HashWorkerFarm.new [] [] 3 = RustOutcome.ok ws ∧
      ws.length = 3 ∧
      (∀ i j, i < j → j < 3 →
        ((workerRanges ws).getD i (0, 0)).1 < ((workerRanges ws).getD j (0, 0)).1 ∧
        ((workerRanges ws).getD i (0, 0)).2 ≤ ((workerRanges ws).getD j (0, 0)).1) ∧
      (∀ i, i + 1 < 3 →
        ((workerRanges ws).getD i (0, 0)).2 = ((workerRanges ws).getD (i + 1) (0, 0)).1) ∧
      ((workerRanges ws).getD 0 (0, 0)).1 = 0 ∧
      ((workerRanges ws).getD (3 - 1) (0, 0)).2 = u64MAX ∧
      (∀ x, x < u64MAX ↔ ∃ i, i < 3 ∧ ((workerRanges ws).getD i (0, 0)).1 ≤ x ∧
        x < ((workerRanges ws).getD i (0, 0)).2) :=
  farm_partition_spec [] [] 3 (by omega) (by omega)

/-- Claim C1 as stated is false on the code: with one worker the produced
range is `[0, 2^64 - 1)`, the last range's end is `std::u64::MAX = 2^64 - 1`
rather than `2^64`, and the nonce `2^64 - 1` lies in no range. -/
theorem farm_partition_counterexample :
    HashWorkerFarm.new [] [] 1 =
      RustOutcome.ok [⟨0, 2 ^ 64 - 1, ⟨[]⟩, []⟩] ∧
    (2 ^ 64 - 1 : Nat) ≠ 2 ^ 64 ∧
    ¬ ((⟨0, 2 ^ 64 - 1, ⟨[]⟩, []⟩ : HashWorker).start_nonce ≤ 2 ^ 64 - 1 ∧
       (2 ^ 64 - 1 : Nat) < (⟨0, 2 ^ 64 - 1, ⟨[]⟩, []⟩ : HashWorker).end_nonce) := by
  refine ⟨by decide, by omega, ?_⟩
  intro h
  exact absurd h.2 (by simp)

/-! Claims C7 and C8: the hex codec. -/

theorem lor_mul16 (v w : Nat) (hv : v < 16) (hw : w < 16) : (v * 16) ||| w = v * 16 + w := by
  have hall : ∀ v, v < 16 → ∀ w, w < 16 → (v * 16) ||| w = v * 16 + w := by decide
  exact hall v hv w hw

theorem hexVal_lt (c : Nat) (hc : isHexDigit c) : hexVal c < 16 := by
  unfold isHexDigit at hc
  unfold hexVal
  split_ifs <;> omega

theorem shift4_mod (buf : Nat) : (buf <<< 4) % 256 = buf % 16 * 16 := by
  rw [Nat.shiftLeft_eq]
  have h4 : (2 : Nat) ^ 4 = 16 := by norm_num
  rw [h4]
  omega

theorem fromHexAux_digit (buf modulus : Nat) (acc rest : List Nat) (c : Nat)
    (hc : isHexDigit c) :
    fromHexAux buf modulus acc (c :: rest) =
      if modulus = 1 then
        fromHexAux (buf % 16 * 16 + hexVal c) 0 ((buf % 16 * 16 + hexVal c) :: acc) rest
      else fromHexAux (buf % 16 * 16 + hexVal c) 1 acc rest := by
  have hb16 : buf % 16 < 16 := Nat.mod_lt _ (by omega)
  rcases hc with h1 | h2 | h3
  · have hv : hexVal c = c - 48 := by
      unfold hexVal
      rw [if_neg (by omega), if_neg (by omega)]
    simp only [fromHexAux]
    rw [if_neg (by omega : ¬ (65 ≤ c ∧ c ≤ 70)), if_neg (by omega : ¬ (97 ≤ c ∧ c ≤ 102)),
      if_pos (by omega : 48 ≤ c ∧ c ≤ 57), shift4_mod,
      lor_mul16 _ _ hb16 (by omega), hv]
  · have hv : hexVal c = c - 65 + 10 := by
      unfold hexVal
      rw [if_pos (by omega)]
    simp only [fromHexAux]
    rw [if_pos (by omega : 65 ≤ c ∧ c ≤ 70), shift4_mod,
      lor_mul16 _ _ hb16 (by omega), hv]
  · have hv : hexVal c = c - 97 + 10 := by
      unfold hexVal
      rw [if_neg (by omega), if_pos (by omega)]
    simp only [fromHexAux]
    rw [if_neg (by omega : ¬ (65 ≤ c ∧ c ≤ 70)), if_pos (by omega : 97 ≤ c ∧ c ≤ 102),
      shift4_mod, lor_mul16 _ _ hb16 (by omega), hv]

theorem fromHexAux_ws (buf modulus : Nat) (acc rest : List Nat) (c : Nat)
    (hc : isSkippedWhitespace c) :
    fromHexAux buf modulus acc (c :: rest) = fromHexAux (buf % 16) modulus acc rest := by
  have hlt : c < 48 := by unfold isSkippedWhitespace at hc; omega
  simp only [fromHexAux]
  rw [if_neg (by omega : ¬ (65 ≤ c ∧ c ≤ 70)), if_neg (by omega : ¬ (97 ≤ c ∧ c ≤ 102)),
    if_neg (by omega : ¬ (48 ≤ c ∧ c ≤ 57)), if_pos hc, shift4_mod]
  have hdiv : (buf % 16 * 16) >>> 4 = buf % 16 := by
    rw [Nat.shiftRight_eq_div_pow]
    have h4 : (2 : Nat) ^ 4 = 16 := by norm_num
    rw [h4]
    omega
  rw [hdiv]

theorem fromHexAux_chars : ∀ (s : List Nat) buf modulus acc r,
    fromHexAux buf modulus acc s = some r →
    ∀ c ∈ s, isHexDigit c ∨ isSkippedWhitespace c := by
  intro s
  induction s with
  | nil =>
    intro buf modulus acc r _ c hc
    simp at hc
  | cons d rest ih =>
    intro buf modulus acc r h c hc
    by_cases h1 : isHexDigit d
    · rw [fromHexAux_digit _ _ _ _ _ h1] at h
      rcases List.mem_cons.mp hc with hcd | hcr
      · exact Or.inl (hcd ▸ h1)
      · by_cases hm : modulus = 1
        · rw [if_pos hm] at h
          exact ih _ _ _ _ h c hcr
        · rw [if_neg hm] at h
          exact ih _ _ _ _ h c hcr
    · by_cases h2 : isSkippedWhitespace d
      · rw [fromHexAux_ws _ _ _ _ _ h2] at h
        rcases List.mem_cons.mp hc with hcd | hcr
        · exact Or.inr (hcd ▸ h2)
        · exact ih _ _ _ _ h c hcr
      · exfalso
        unfold isHexDigit at h1
        unfold isSkippedWhitespace at h2
        simp only [fromHexAux] at h
        rw [if_neg (by omega : ¬ (65 ≤ d ∧ d ≤ 70)), if_neg (by omega : ¬ (97 ≤ d ∧ d ≤ 102)),
          if_neg (by omega : ¬ (48 ≤ d ∧ d ≤ 57)),
          if_neg (by unfold isSkippedWhitespace; omega)] at h
        exact Option.noConfusion h

theorem fromHexAux_decodes : ∀ (n : Nat) (s : List Nat), s.length = n →
    (∀ c ∈ s, isHexDigit c) → s.length % 2 = 0 →
    ∀ acc buf, fromHexAux buf 0 acc s = some (acc.reverse ++ hexDecode s) := by
  intro n
  induction n using Nat.strong_induction_on with
  | _ n ih =>
    intro s hlen hhex heven acc buf
    rcases s with _ | ⟨a, _ | ⟨b, rest⟩⟩
    · simp [fromHexAux, hexDecode]
    · simp at hlen heven
    · have ha := hhex a (by simp)
      have hb := hhex b (by simp)
      rw [fromHexAux_digit _ _ _ _ _ ha, if_neg (by omega)]
      rw [fromHexAux_digit _ _ _ _ _ hb, if_pos rfl]
      have hva : (buf % 16 * 16 + hexVal a) % 16 * 16 + hexVal b =
          hexVal a * 16 + hexVal b := by
        have := hexVal_lt a ha
        omega
      rw [hva]
      simp only [List.length_cons] at hlen heven
      have hrec := ih rest.length (by omega) rest rfl
        (fun c hc => hhex c (by simp [hc])) (by omega)
        ((hexVal a * 16 + hexVal b) :: acc) (hexVal a * 16 + hexVal b)
      rw [hrec, List.reverse_cons, List.append_assoc]
      simp [hexDecode]

theorem hexDecode_length : ∀ (n : Nat) (s : List Nat), s.length = n →
    (hexDecode s).length = s.length / 2 := by
  intro n
  induction n using Nat.strong_induction_on with
  | _ n ih =>
    intro s hlen
    rcases s with _ | ⟨a, _ | ⟨b, rest⟩⟩
    · simp [hexDecode]
    · simp [hexDecode]
    · simp only [List.length_cons] at hlen
      simp only [hexDecode, List.length_cons]
      rw [ih rest.length (by omega) rest rfl]
      omega

theorem from_str_allhex (s : List Nat) (hlen : s.length = 64)
    (hhex : ∀ c ∈ s, isHexDigit c) :
    Sha256Hash.from_str s = RustOutcome.ok (some (hexDecode s)) ∧
      (hexDecode s).length = 32 := by
  have hdec : fromHex s = some (hexDecode s) := by
    unfold fromHex
    rw [fromHexAux_decodes s.length s rfl hhex (by omega) [] 0]
    simp
  have hdl : (hexDecode s).length = 32 := by
    rw [hexDecode_length s.length s rfl, hlen]
  refine ⟨?_, hdl⟩
  unfold Sha256Hash.from_str
  rw [if_neg (by omega), hdec]
  simp [hdl]

theorem toHex_length : ∀ (bytes : List Nat), (toHex bytes).length = 2 * bytes.length := by
  intro bytes
  induction bytes with
  | nil => rfl
  | cons b rest ih =>
    simp only [toHex, List.length_cons, ih]
    omega

theorem hexChar_lower (v : Nat) (hv : v < 16) : isLowerHexDigit (hexChar v) := by
  have hall : ∀ v, v < 16 → isLowerHexDigit (hexChar v) := by decide
  exact hall v hv

theorem toHex_lower : ∀ (bytes : List Nat), (∀ b ∈ bytes, b < 256) →
    ∀ c ∈ toHex bytes, isLowerHexDigit c := by
  intro bytes
  induction bytes with
  | nil => intro _ c hc; simp [toHex] at hc
  | cons b rest ih =>
    intro hbb c hc
    have hb := hbb b (by simp)
    simp only [toHex] at hc
    rcases List.mem_cons.mp hc with hc1 | hc2
    · exact hc1 ▸ hexChar_lower _ (by omega)
    · rcases List.mem_cons.mp hc2 with hc3 | hc4
      · exact hc3 ▸ hexChar_lower _ (by omega)
      · exact ih (fun x hx => hbb x (by simp [hx])) c hc4

theorem hexChar_hexVal (c : Nat) (hc : isLowerHexDigit c) : hexChar (hexVal c) = c := by
  have hall : ∀ c, c < 103 → isLowerHexDigit c → hexChar (hexVal c) = c := by decide
  have hlt : c < 103 := by unfold isLowerHexDigit at hc; omega
  exact hall c hlt hc

theorem lowerHex_isHexDigit (c : Nat) (hc : isLowerHexDigit c) : isHexDigit c := by
  unfold isLowerHexDigit at hc
  unfold isHexDigit
  omega

theorem toHex_hexDecode : ∀ (n : Nat) (s : List Nat), s.length = n →
    (∀ c ∈ s, isLowerHexDigit c) → s.length % 2 = 0 → toHex (hexDecode s) = s := by
  intro n
  induction n using Nat.strong_induction_on with
  | _ n ih =>
    intro s hlen hhex heven
    rcases s with _ | ⟨a, _ | ⟨b, rest⟩⟩
    · rfl
    · simp at hlen heven
    · have ha := hhex a (by simp)
      have hb := hhex b (by simp)
      have hva := hexVal_lt a (lowerHex_isHexDigit a ha)
      have hvb := hexVal_lt b (lowerHex_isHexDigit b hb)
      simp only [List.length_cons] at hlen heven
      simp only [hexDecode, toHex]
      have hdiv : (hexVal a * 16 + hexVal b) / 16 = hexVal a := by omega
      have hmod : (hexVal a * 16 + hexVal b) % 16 = hexVal b := by omega
      rw [hdiv, hmod, hexChar_hexVal a ha, hexChar_hexVal b hb,
        ih rest.length (by omega) rest rfl (fun c hc => hhex c (by simp [hc])) (by omega)]

/-- Claim C7 (amended): `Sha256Hash::from_str` errors on every string whose
length differs from 64 or containing a character that is neither a hex
digit nor skippable whitespace; because the decoder skips whitespace,
acceptance does not imply the input is valid hexadecimal, and trailing
output bytes beyond the decoded ones keep the zero initialization (see the
counterexample); for an input of exactly 64 hex digits the 32 bytes are
exactly the in-order decoding. -/
theorem from_str_spec :
    (∀ s r, Sha256Hash.from_str s = RustOutcome.ok (some r) →
      s.length = 64 ∧ ∀ c ∈ s, isHexDigit c ∨ isSkippedWhitespace c) ∧
    (∀ s, s.length = 64 → (∀ c ∈ s, isHexDigit c) →
      Sha256Hash.from_str s = RustOutcome.ok (some (hexDecode s)) ∧
        (hexDecode s).length = 32) := by
  constructor
  · intro s r h
    unfold Sha256Hash.from_str at h
    by_cases hlen : s.length ≠ 64
    · rw [if_pos hlen] at h
      exact absurd h (by simp)
    · refine ⟨by omega, ?_⟩
      rw [if_neg hlen] at h
      cases hfh : fromHex s with
      | none => rw [hfh] at h; exact absurd h (by simp)
      | some r0 =>
        rw [hfh] at h
        unfold fromHex at hfh
        exact fromHexAux_chars s 0 0 [] r0 hfh
  · intro s hlen hhex
    exact from_str_allhex s hlen hhex

/-- Witness for claim C7: the accepted whitespace-bearing input exercises
the error-shape conjunct, and the all-zero-digit string the exact-decode
conjunct. -/
theorem from_str_spec_witness :
    (([102, 102] ++ List.replicate 60 48 ++ [32, 32]).length = 64 ∧
      ∀ c ∈ [102, 102] ++ List.replicate 60 48 ++ [32, 32],
        isHexDigit c ∨ isSkippedWhitespace c) ∧
    (Sha256Hash.from_str (List.replicate 64 48) =
        RustOutcome.ok (some (hexDecode (List.replicate 64 48))) ∧
      (hexDecode (List.replicate 64 48)).length = 32) :=
  ⟨from_str_spec.1 ([102, 102] ++ List.replicate 60 48 ++ [32, 32])
      (255 :: List.replicate 31 0) (by decide),
   from_str_spec.2 (List.replicate 64 48) (by decide) (by decide)⟩

/-- Claim C7 as stated is false on the code: a 64-character input holding
62 hex digits and two spaces is not valid hexadecimal, yet parsing
succeeds, decodes the 62 digits to 31 bytes, and leaves the last byte
implicitly zero-filled. -/
theorem from_str_counterexample :
    Sha256Hash.from_str ([102, 102] ++ List.replicate 60 48 ++ [32, 32]) =
      RustOutcome.ok (some (255 :: List.replicate 31 0)) ∧
    (32 ∈ [102, 102] ++ List.replicate 60 48 ++ [32, 32]) ∧
    ¬ isHexDigit 32 ∧
    (255 :: List.replicate 31 0).getD 31 999 = 0 := by
  refine ⟨by decide, by decide, by decide, by decide⟩

/-- Claim C8 (amended): the digest rendering `to_hex` always produces 64
lowercase hex characters on a 32-byte digest, and the round-trip law
`to_hex (parse_hex s) = s` holds for every accepted input consisting of 64
lowercase hex digits — but not for every accepted input, since uppercase
digits and whitespace are also accepted (see the counterexample). -/
theorem to_hex_round_trip :
    (∀ bytes, bytes.length = 32 → (∀ b ∈ bytes, b < 256) →
      (toHex bytes).length = 64 ∧ ∀ c ∈ toHex bytes, isLowerHexDigit c) ∧
    (∀ s, s.length = 64 → (∀ c ∈ s, isLowerHexDigit c) →
      Sha256Hash.from_str s = RustOutcome.ok (some (hexDecode s)) ∧
        toHex (hexDecode s) = s) := by
  constructor
  · intro bytes hlen hbb
    refine ⟨?_, toHex_lower bytes hbb⟩
    rw [toHex_length, hlen]
  · intro s hlen hhex
    have hall : ∀ c ∈ s, isHexDigit c := fun c hc => lowerHex_isHexDigit c (hhex c hc)
    refine ⟨(from_str_allhex s hlen hall).1, ?_⟩
    exact toHex_hexDecode s.length s rfl hhex (by omega)

/-- Witness for claim C8: the all-zero digest renders to 64 lowercase
characters, and the 64-f string round-trips. -/
theorem to_hex_round_trip_witness :
    ((toHex (List.replicate 32 0)).length = 64 ∧
      ∀ c ∈ toHex (List.replicate 32 0), isLowerHexDigit c) ∧
    (Sha256Hash.from_str (List.replicate 64 102) =
        RustOutcome.ok (some (hexDecode (List.replicate 64 102))) ∧
      toHex (hexDecode (List.replicate 64 102)) = List.replicate 64 102) :=
  ⟨to_hex_round_trip.1 (List.replicate 32 0) (by decide) (by decide),
   to_hex_round_trip.2 (List.replicate 64 102) (by decide) (by decide)⟩

/-- Claim C8 as stated is false on the code: the 64-uppercase-F string is
accepted by `from_str`, but rendering the parsed digest yields the
lowercase 64-f string, not the original input. -/
theorem to_hex_round_trip_counterexample :
    Sha256Hash.from_str (List.replicate 64 70) =
      RustOutcome.ok (some (List.replicate 32 255)) ∧
    toHex (List.replicate 32 255) ≠ List.replicate 64 70 := by
  refine ⟨by decide, by decide⟩
